import Mathlib

/-!
Shallow embedding of `src/src/khoj/processor/notion/notion_to_jsonl.py`:
the Notion block-tree flattener (`process_page`, `process_text`,
`process_heading`, `process_nested_children`, `get_page_content`) and the
id-reconciliation step (`update_entries_with_ids`).  Python dictionaries are
embedded as structures whose optionally-present keys (those read with
`.get`) are `Option`-valued fields; an uncaught Python exception is embedded
as `Except.error`, and a network fetch for a block's children is embedded by
carrying the fetched child list inside the block record.
-/

namespace Notion

/-- One rich-text run `{type, plain_text, href}` as read by `process_text`. -/
structure TextRun where
  type : Option String
  plain_text : String
  href : Option String
deriving DecidableEq

/-- An indexable entry as constructed in `process_page`
(`Entry(compiled=..., raw=..., heading=..., file=...)`). -/
structure Entry where
  compiled : String
  raw : String
  heading : String
  file : String
deriving DecidableEq

/-- A block record together with the payload fields the code reads.
`type` is `block.get("type")`; `rich_text` is the type-keyed payload's
`rich_text` list (`block[block_type].get("rich_text")`); `has_children` is
the record-level field `block.get("has_children", ...)` read by
`process_page`; `payload_has_children` is the field
`child_data.get("has_children", ...)` that `process_nested_children` reads
from the type-keyed payload; `children` stands for the `results` list
returned by `get_block_children` on this block's id. -/
inductive Block where
  | mk (type : Option String) (rich_text : Option (List TextRun))
       (has_children : Option Bool) (payload_has_children : Option Bool)
       (children : List Block)

def Block.type : Block → Option String
  | .mk t _ _ _ _ => t

def Block.rich_text : Block → Option (List TextRun)
  | .mk _ r _ _ _ => r

def Block.has_children : Block → Option Bool
  | .mk _ _ h _ _ => h

def Block.payload_has_children : Block → Option Bool
  | .mk _ _ _ p _ => p

def Block.children : Block → List Block
  | .mk _ _ _ _ c => c

/-- The `self.unsupported_block_types` list built in `__init__`. -/
def unsupported_block_types : List String :=
  ["bookmark", "divider", "child_database", "template", "callout", "unsupported"]

/-- The `self.display_block_block_types` list built in `__init__`. -/
def display_block_block_types : List String :=
  ["paragraph", "heading_1", "heading_2", "heading_3", "bulleted_list_item",
   "numbered_list_item", "to_do", "toggle", "child_page", "bookmark", "divider"]

/-- The heading-type list tested in `process_page`
(`block_type in ["heading_1", "heading_2", "heading_3"]`). -/
def headingTypes : List String :=
  ["heading_1", "heading_2", "heading_3"]

/-- Python membership `x in l` for an optional string: `None in l` is false
for a list of strings. -/
def memOpt : Option String → List String → Bool
  | some s, l => l.contains s
  | none, _ => false

/-- Python truthiness of `text.get("href", None)`: truthy exactly when the
key is present and its value is a non-empty string. -/
def truthy : Option String → Bool
  | some s => s ≠ ""
  | none => false

/-- `process_heading`: render the remembered heading as a bolded line. -/
def process_heading (heading : String) : String :=
  "\n<b>" ++ heading ++ "</b>\n"

/-- `process_text(text, block_type=None)`: serialize one rich-text run.
The unsupported check is on the run's own `type`; a truthy `href` yields the
hyperlink form; a display-typed run or enclosing block type yields a
newline-wrapped form; otherwise the plain text verbatim. -/
def process_text (text : TextRun) (block_type : Option String) : String :=
  if memOpt text.type unsupported_block_types then ""
  else if truthy text.href then
    "<a href=\x27" ++ text.href.getD "" ++ "\x27>" ++ text.plain_text ++ "</a>"
  else if memOpt text.type display_block_block_types
       || memOpt block_type display_block_block_types then
    "\n" ++ text.plain_text ++ "\n"
  else
    text.plain_text

/-- Serialize a block's rich-text run list as the `for text in ...:
raw_content += process_text(text, block_type)` loop does. -/
def serializeRuns (rts : List TextRun) (block_type : Option String)
    (raw_content : String) : String :=
  rts.foldl (fun acc t => acc ++ process_text t block_type) raw_content

/-- `process_nested_children(children, raw_content, block_type)`: walk the
fetched child list; a child with no `type` is skipped; a child's runs are
appended using the caller's `block_type`; as soon as a child's payload
`has_children` is truthy (or absent, defaulting to `True`), the function
returns the recursive call on that child's children. -/
def process_nested_children : List Block → String → Option String → String
  | [], raw_content, _ => raw_content
  | Block.mk child_type rt _ payload_hc cc :: rest, raw_content, block_type =>
    match child_type with
    | none => process_nested_children rest raw_content block_type
    | some _ =>
      let raw1 :=
        match rt with
        | some rts =>
            if rts.length > 0 then serializeRuns rts block_type raw_content
            else raw_content
        | none => raw_content
      if payload_hc.getD true then
        process_nested_children cc raw1 block_type
      else
        process_nested_children rest raw1 block_type

/-- The `{"text": {"content": ...}}` leaf of a title property. -/
structure TitleText where
  content : Option String
deriving DecidableEq

/-- One item of a title property's `title` array. -/
structure TitleItem where
  text : Option TitleText

/-- A title property record with its `title` array. -/
structure TitleField where
  title : Option (List TitleItem)

/-- The page's `properties` dictionary: presence of the `"Title"` and
`"title"` keys. -/
structure PageProps where
  Title : Option TitleField
  title : Option TitleField

/-- A page record: `id` and `url` from the search result, and `fetch`
standing for the pair of network calls `get_page` / `get_page_children`:
`none` when either call raises (caught by the `try` block), otherwise the
fetched page's optional `properties` and the fetched child block list. -/
structure PageRecord where
  id : String
  url : String
  fetch : Option (Option PageProps × List Block)

/-- `get_page_content(page_id)`: a transport failure is caught and returns
`(None, None)`; the subsequent field accesses `page["properties"]`,
`properties[title_field]`, `["title"]`, `[0]`, `["text"]`, `["content"]`
are outside the `try` block, so a missing field raises (an `Except.error`). -/
def get_page_content (page : PageRecord) :
    Except String (Option String × Option (List Block)) :=
  match page.fetch with
  | none => Except.ok (none, none)
  | some (props?, content) =>
    match props? with
    | none => Except.error "KeyError: properties"
    | some properties =>
      let fieldVal : Option TitleField :=
        match properties.Title with
        | some f => some f
        | none => properties.title
      match fieldVal with
      | none => Except.error "KeyError: title"
      | some f =>
        match f.title with
        | none => Except.error "KeyError: title"
        | some items =>
          match items with
          | [] => Except.error "IndexError: list index out of range"
          | item :: _ =>
            match item.text with
            | none => Except.error "KeyError: text"
            | some tt =>
              match tt.content with
              | none => Except.error "KeyError: content"
              | some s => Except.ok (some s, some content)

/-- One iteration of the `for block in content["results"]` loop of
`process_page`, threading the state `(curr_heading, current_entries)`.
`raw_content` is reset to the empty string at the top of the iteration, so
the flush guarded by `raw_content != ""` inside the heading branch can never
append; the run loop then serializes the block's runs with `block_type`
defaulted to `None`; a truthy (or absent) record-level `has_children`
appends a newline and runs `process_nested_children` with the block's type. -/
def process_block (title url : String) (st : String × List Entry)
    (block : Block) : String × List Entry :=
  match block.type with
  | none => st
  | some block_type =>
    match block.rich_text with
    | none => st
    | some rich_text =>
      match rich_text with
      | [] => st
      | first :: restRuns =>
        let curr_heading := st.1
        let raw_content : String := ""
        let isHeading := headingTypes.contains block_type
        let entries1 :=
          if isHeading && decide (raw_content ≠ "") then
            st.2 ++ [Entry.mk raw_content raw_content title url]
          else st.2
        let curr_heading1 := if isHeading then first.plain_text else curr_heading
        let raw1 :=
          if isHeading then raw_content
          else if curr_heading ≠ "" then process_heading curr_heading
          else raw_content
        let raw2 := serializeRuns (first :: restRuns) none raw1
        let raw3 :=
          if block.has_children.getD true then
            process_nested_children block.children (raw2 ++ "\n") (some block_type)
          else raw2
        let entries2 :=
          if raw3 ≠ "" then entries1 ++ [Entry.mk raw3 raw3 title url]
          else entries1
        (curr_heading1, entries2)

/-- The body of `process_page` after `get_page_content` succeeded: fold the
block list starting from an empty heading context and no entries. -/
def process_blocks (title url : String) (blocks : List Block) : List Entry :=
  (blocks.foldl (process_block title url) ("", [])).2

/-- `process_page(page)`: fetch title and children; when both are `None`
(caught transport failure) return no entries; a raising field access
propagates; otherwise fold the block list. -/
def process_page (page : PageRecord) : Except String (List Entry) :=
  match get_page_content page with
  | Except.error e => Except.error e
  | Except.ok (title?, content?) =>
    match title?, content? with
    | some title, some blocks => Except.ok (process_blocks title page.url blocks)
    | _, _ => Except.ok []

/-- A fresh id strictly larger than every previously assigned id. -/
def nextFreshId (previous : List (Nat × Entry)) : Nat :=
  (previous.map Prod.fst).foldr max 0 + 1

/-- Modelled from the spec: the matcher `TextToJsonl.mark_entries_for_update`
lives in `khoj/processor/text_to_jsonl.py`, which is not part of the provided
source.  Per the spec it matches each current entry, in current order, to a
previous entry by equality of the `compiled` content key; a matched entry
keeps the previous entry's id, an unmatched one receives a fresh id colliding
with no previous or already-assigned id. -/
def markGo (previous : List (Nat × Entry)) : List Entry → Nat → List (Nat × Entry)
  | [], _ => []
  | e :: rest, next =>
    match previous.find? (fun p => p.2.compiled = e.compiled) with
    | some p => (p.1, e) :: markGo previous rest next
    | none => (next, e) :: markGo previous rest (next + 1)

/-- Modelled from the spec: entry point of the content-key matcher, with
`compiled` as the identity key and fresh ids starting above every previous
id. -/
def mark_entries_for_update (current : List Entry)
    (previous : List (Nat × Entry)) : List (Nat × Entry) :=
  markGo previous current (nextFreshId previous)

/-- `update_entries_with_ids(current_entries, previous_entries)`: with no
previous snapshot (`if not previous_entries`) enumerate the current entries;
otherwise delegate to the content-key matcher.  The JSONL serialization side
effects are outside this core. -/
def update_entries_with_ids (current : List Entry)
    (previous : List (Nat × Entry)) : List (Nat × Entry) :=
  if previous.isEmpty then current.enum
  else mark_entries_for_update current previous

/-! Concrete fixtures used to evaluate the embedded code on explicit inputs. -/

/-- A rich-text run of the ordinary run type `text` with no hyperlink. -/
def tRun (s : String) : TextRun :=
  ⟨some "text", s, none⟩

/-- A paragraph block with one plain run and no children. -/
def para (s : String) : Block :=
  Block.mk (some "paragraph") (some [tRun s]) (some false) none []

/-- A heading_1 block with one plain run and no children. -/
def h1 (s : String) : Block :=
  Block.mk (some "heading_1") (some [tRun s]) (some false) none []

/-- A well-formed `properties` record whose `Title` key holds the title `T`. -/
def sampleProps : PageProps :=
  ⟨some ⟨some [⟨some ⟨some "T"⟩⟩]⟩, none⟩

/-- A page whose both fetches succeed, with title `T`, url `u` and the given
top-level blocks. -/
def mkPage (bs : List Block) : PageRecord :=
  ⟨"p", "u", some (some sampleProps, bs)⟩

/-- An entry whose compiled and raw text are the given string. -/
def mkE (s : String) : Entry :=
  ⟨s, s, "", ""⟩

/-! Theorems about the embedded code.  `process_nested_children` is compiled
by well-founded recursion, so its unfolding steps are stated once as helper
equations and used through `simp`. -/

theorem pnc_nil (raw : String) (bt : Option String) :
    process_nested_children [] raw bt = raw := by
  simp [process_nested_children]

theorem pnc_cons_untyped (rt : Option (List TextRun)) (hc pc : Option Bool)
    (cc rest : List Block) (raw : String) (bt : Option String) :
    process_nested_children (Block.mk none rt hc pc cc :: rest) raw bt =
      process_nested_children rest raw bt := by
  simp [process_nested_children]

theorem pnc_cons_typed (ct : String) (rt : Option (List TextRun))
    (hc pc : Option Bool) (cc rest : List Block) (raw : String)
    (bt : Option String) :
    process_nested_children (Block.mk (some ct) rt hc pc cc :: rest) raw bt =
      (let raw1 :=
        match rt with
        | some rts => if rts.length > 0 then serializeRuns rts bt raw else raw
        | none => raw
      if pc.getD true then process_nested_children cc raw1 bt
      else process_nested_children rest raw1 bt) := by
  rw [process_nested_children.eq_def]

/-- C7: with an absent or empty previous snapshot, `update_entries_with_ids`
assigns ids `0..n-1` to the `n` current entries in their current order; in
particular `["x","y","z"]` yields `[(0,"x"),(1,"y"),(2,"z")]`. -/
theorem first_run_assignment (current : List Entry) :
    update_entries_with_ids current [] = (List.range current.length).zip current ∧
    update_entries_with_ids [mkE "x", mkE "y", mkE "z"] [] =
      [(0, mkE "x"), (1, mkE "y"), (2, mkE "z")] := by
  refine ⟨?_, by decide⟩
  simp [update_entries_with_ids, List.enum_eq_zip_range]

/-- C10: an absent `has_children` field is treated as `True`: `process_page`
processes a block with no record-level `has_children` exactly as one with
`has_children = True` (appending the newline and flattening the fetched
children); `process_nested_children` ignores the record-level field entirely
and reads `has_children` from the type-keyed payload, recursing into a typed
child whose payload lacks the field after serializing its runs; concretely a
paragraph block lacking the field and with no fetched children yields the
entry `"a\n"`. -/
theorem has_children_default_true :
    (∀ (title url : String) (st : String × List Entry) (t : Option String)
       (rt : Option (List TextRun)) (pc : Option Bool) (cc : List Block),
       process_block title url st (Block.mk t rt none pc cc) =
         process_block title url st (Block.mk t rt (some true) pc cc)) ∧
    (∀ (raw : String) (bt t : Option String) (rt : Option (List TextRun))
       (hc₁ hc₂ pc : Option Bool) (cc rest : List Block),
       process_nested_children (Block.mk t rt hc₁ pc cc :: rest) raw bt =
         process_nested_children (Block.mk t rt hc₂ pc cc :: rest) raw bt) ∧
    (∀ (ct : String) (rts : List TextRun) (hc : Option Bool)
       (cc rest : List Block) (raw : String) (bt : Option String),
       process_nested_children (Block.mk (some ct) (some rts) hc none cc :: rest) raw bt =
         process_nested_children cc
           (if rts.length > 0 then serializeRuns rts bt raw else raw) bt) ∧
    process_page (mkPage [Block.mk (some "paragraph") (some [tRun "a"]) none none []]) =
      Except.ok [Entry.mk "a\n" "a\n" "T" "u"] := by
  refine ⟨?_, ?_, ?_, ?_⟩
  · intro title url st t rt pc cc
    cases t with
    | none => rfl
    | some bt =>
      cases rt with
      | none => rfl
      | some rts =>
        cases rts with
        | nil => rfl
        | cons f r => rfl
  · intro raw bt t rt hc₁ hc₂ pc cc rest
    cases t with
    | none => rw [pnc_cons_untyped, pnc_cons_untyped]
    | some ct => rw [pnc_cons_typed, pnc_cons_typed]
  · intro ct rts hc cc rest raw bt
    rw [pnc_cons_typed]
    rfl
  · simp [process_page, get_page_content, mkPage, sampleProps, process_blocks,
      process_block, Block.type, Block.rich_text, Block.has_children,
      Block.children, serializeRuns, process_text, tRun, memOpt, truthy,
      unsupported_block_types, display_block_block_types, headingTypes,
      pnc_nil, Entry.mk.injEq]

/-- C1 counterexample: contrary to the claim, a heading block does produce
an Entry of its own: on a page whose only block is `heading_1("H")` the
traversal sets the heading context to `"H"` (the heading's first run's plain
text) but also emits the entry with raw text `"H"`, because the
run-serialization loop runs for heading blocks as well. -/
theorem heading_block_emits_entry_eval :
    process_page (mkPage [h1 "H"]) = Except.ok [Entry.mk "H" "H" "T" "u"] ∧
    (process_block "T" "u" ("", []) (h1 "H")).1 = "H" ∧
    [Entry.mk "H" "H" "T" "u"] ≠ ([] : List Entry) :=
  ⟨rfl, rfl, by decide⟩

/-- C1 amended: a heading-type block with a non-empty rich_text list sets
the heading context to its first run's plain text, but the block also emits
an Entry of its own whenever its serialized run text is non-empty: the
heading's runs are serialized by the unconditional run loop (with no
heading-context prefix) and the emission guard only tests that text. -/
theorem heading_sets_context_and_emits (title url curr : String)
    (es : List Entry) (bt : String) (hbt : bt ∈ headingTypes)
    (f : TextRun) (r : List TextRun) (cc : List Block) :
    process_block title url (curr, es)
        (Block.mk (some bt) (some (f :: r)) (some false) none cc) =
      (f.plain_text,
       if serializeRuns (f :: r) none "" ≠ "" then
         es ++ [Entry.mk (serializeRuns (f :: r) none "")
                  (serializeRuns (f :: r) none "") title url]
       else es) := by
  have hc : headingTypes.contains bt = true := List.elem_iff.mpr hbt
  have hd : (decide (("" : String) ≠ "")) = false := by decide
  simp only [process_block, Block.type, Block.rich_text, Block.has_children,
    Block.children, hc, hd, Bool.and_false, Bool.false_eq_true, if_false,
    if_true, Option.getD_some]

theorem heading_sets_context_and_emits_witness :
    ("heading_1" ∈ headingTypes) ∧
    process_block "T" "u" ("", [])
        (Block.mk (some "heading_1") (some [tRun "H"]) (some false) none []) =
      ("H", [Entry.mk "H" "H" "T" "u"]) := by
  refine ⟨by decide, ?_⟩
  rw [heading_sets_context_and_emits "T" "u" "" [] "heading_1" (by decide)
    (tRun "H") [] []]
  rfl

/-- C2: contrary to the spec, `[paragraph("a"), heading_1("H"),
paragraph("b")]` produces three entries, not two: the heading block emits its
own entry `"H"`, and the flush of pending content before a heading can never
happen since `raw_content` is reset to the empty string at the top of each
iteration — every block contributes at most one entry on its own. -/
theorem heading_flush_dead_eval :
    process_page (mkPage [para "a", h1 "H", para "b"]) =
      Except.ok [Entry.mk "a" "a" "T" "u", Entry.mk "H" "H" "T" "u",
        Entry.mk "\n<b>H</b>\nb" "\n<b>H</b>\nb" "T" "u"] ∧
    ∀ (title url : String) (st : String × List Entry) (b : Block),
      (process_block title url st b).2.length ≤ st.2.length + 1 := by
  refine ⟨rfl, ?_⟩
  intro title url st b
  cases b with
  | mk t rt hc pc cc =>
    cases t with
    | none => simp [process_block, Block.type]
    | some bt =>
      cases rt with
      | none => simp [process_block, Block.type, Block.rich_text]
      | some rts =>
        cases rts with
        | nil => simp [process_block, Block.type, Block.rich_text]
        | cons f r =>
          have hd : (decide (("" : String) ≠ "")) = false := by decide
          simp only [process_block, Block.type, Block.rich_text, hd, Bool.and_false,
            Bool.false_eq_true, if_false]
          split_ifs <;> simp [List.length_append]

theorem process_text_of_unsupported (t : TextRun) (bt : Option String)
    (h : memOpt t.type unsupported_block_types = true) :
    process_text t bt = "" := by
  simp [process_text, h]

theorem serializeRuns_all_empty (bt : Option String) :
    ∀ (rts : List TextRun) (raw : String),
      (∀ t ∈ rts, process_text t bt = "") → serializeRuns rts bt raw = raw := by
  intro rts
  induction rts with
  | nil => intro raw _; rfl
  | cons f r ih =>
    intro raw h
    have hf := h f (List.mem_cons_self f r)
    have hr : ∀ t ∈ r, process_text t bt = "" := fun t ht => h t (List.mem_cons_of_mem f ht)
    simp [serializeRuns] at ih ⊢
    rw [hf]
    simpa using ih raw hr

/-- C4 counterexample: a block of type `callout` whose single run has the
ordinary run type `text` does produce an Entry — `process_text` filters by
the run's own type, which is not `callout`, so the run text survives. -/
theorem callout_block_emits_entry_cex :
    process_page (mkPage [Block.mk (some "callout") (some [tRun "x"]) (some false) none []]) =
      Except.ok [Entry.mk "x" "x" "T" "u"] ∧
    [Entry.mk "x" "x" "T" "u"] ≠ ([] : List Entry) :=
  ⟨rfl, by decide⟩

/-- C4 amended: the unsupported-type filter applies to each run's own type,
not to the enclosing block's type: a `callout` block all of whose runs have
unsupported run types, with no children to fetch and no pending heading
context, produces no Entry and leaves the state unchanged; but a `callout`
block with an ordinary `text` run does produce an Entry (see the
counterexample). -/
theorem callout_run_filter_amended (title url : String) (es : List Entry)
    (rts : List TextRun)
    (hall : ∀ t ∈ rts, memOpt t.type unsupported_block_types = true) :
    process_block title url ("", es)
      (Block.mk (some "callout") (some rts) (some false) none []) = ("", es) := by
  cases rts with
  | nil => rfl
  | cons f r =>
    have hall' : ∀ t ∈ f :: r, process_text t none = "" :=
      fun t ht => process_text_of_unsupported t none (hall t ht)
    have hser := serializeRuns_all_empty none (f :: r) "" hall'
    simp only [process_block, Block.type, Block.rich_text, Block.has_children,
      Block.children]
    simp [hser]
    intro hmem
    exact absurd hmem (by decide)

theorem callout_run_filter_amended_witness :
    (∀ t ∈ [(⟨some "divider", "x", none⟩ : TextRun)],
       memOpt t.type unsupported_block_types = true) ∧
    process_block "T" "u" ("", [])
      (Block.mk (some "callout") (some [⟨some "divider", "x", none⟩])
        (some false) none []) = ("", []) :=
  ⟨by decide, callout_run_filter_amended "T" "u" [] [⟨some "divider", "x", none⟩]
    (by decide)⟩

/-- C5 counterexample: a page whose two fetches succeed but whose page record
has no `properties` key makes `process_page` raise (the field accesses are
outside the `try` block) instead of returning zero entries. -/
theorem malformed_page_raises_cex :
    process_page ⟨"p", "u", some (none, [])⟩ = Except.error "KeyError: properties" ∧
    ∀ es : List Entry, process_page ⟨"p", "u", some (none, [])⟩ ≠ Except.ok es := by
  refine ⟨rfl, ?_⟩
  intro es h
  exact Except.noConfusion ((rfl :
    process_page ⟨"p", "u", some (none, [])⟩ = Except.error "KeyError: properties").symm.trans h)

/-- C5 amended: when fetching the page's metadata or its children raises
(the failure caught by the `try` block), `process_page` returns zero entries
and the run continues; but a fetched page record missing the expected
`properties`/title fields raises an uncaught exception instead of being
skipped. -/
theorem fetch_failure_skips_page :
    (∀ page : PageRecord, page.fetch = none → process_page page = Except.ok []) ∧
    (∀ (i u : String) (content : List Block),
       ∃ msg, process_page ⟨i, u, some (none, content)⟩ = Except.error msg) := by
  constructor
  · intro page h
    obtain ⟨i, u, f⟩ := page
    cases h
    rfl
  · intro i u content
    exact ⟨"KeyError: properties", rfl⟩

theorem fetch_failure_skips_page_witness :
    (PageRecord.mk "p0" "u0" none).fetch = none ∧
    process_page (PageRecord.mk "p0" "u0" none) = Except.ok [] :=
  ⟨rfl, fetch_failure_skips_page.1 (PageRecord.mk "p0" "u0" none) rfl⟩

/-- C8 counterexample: a run whose `href` is present but empty is not
serialized as a hyperlink — the code tests Python truthiness of the `href`
value, so the run falls through to plain text. -/
theorem href_empty_not_link_cex :
    process_text ⟨some "text", "click", some ""⟩ none = "click" ∧
    "click" ≠ "<a href=\x27\x27>click</a>" :=
  ⟨rfl, by decide⟩

/-- C8 amended: for a run whose type is not unsupported: a present and
non-empty `href` serializes as the exact hyperlink form wrapping the run's
plain text, taking precedence over display wrapping; with `href` absent or
empty, a display-typed run or enclosing block type yields the plain text
wrapped in a leading and trailing newline; otherwise the plain text is
emitted verbatim. -/
theorem process_text_serialization (t : TextRun) (bt : Option String)
    (hup : memOpt t.type unsupported_block_types = false) :
    (∀ h, t.href = some h → h ≠ "" →
       process_text t bt = "<a href=\x27" ++ h ++ "\x27>" ++ t.plain_text ++ "</a>") ∧
    ((t.href = none ∨ t.href = some "") →
       (memOpt t.type display_block_block_types
         || memOpt bt display_block_block_types) = true →
       process_text t bt = "\n" ++ t.plain_text ++ "\n") ∧
    ((t.href = none ∨ t.href = some "") →
       (memOpt t.type display_block_block_types
         || memOpt bt display_block_block_types) = false →
       process_text t bt = t.plain_text) := by
  refine ⟨?_, ?_, ?_⟩
  · intro h hh hne
    simp [process_text, hup, truthy, hh, hne]
  · intro hh hd
    rcases hh with h0 | h0 <;> simp [process_text, hup, truthy, h0, hd]
  · intro hh hd
    rcases hh with h0 | h0 <;> simp [process_text, hup, truthy, h0, hd]

theorem process_text_serialization_witness :
    memOpt (some "text") unsupported_block_types = false ∧
    process_text ⟨some "text", "click", some "http://x"⟩ none =
      "<a href=\x27" ++ "http://x" ++ "\x27>" ++ "click" ++ "</a>" :=
  ⟨by decide,
    (process_text_serialization ⟨some "text", "click", some "http://x"⟩ none
      (by decide)).1 "http://x" rfl (by decide)⟩

theorem process_block_preserves (title url : String) (st : String × List Entry)
    (b : Block) (hst : ∀ e ∈ st.2, e.raw ≠ "" ∧ e.compiled = e.raw) :
    ∀ e ∈ (process_block title url st b).2, e.raw ≠ "" ∧ e.compiled = e.raw := by
  cases b with
  | mk t rt hc pc cc =>
    cases t with
    | none => simpa [process_block, Block.type] using hst
    | some bt =>
      cases rt with
      | none => simpa [process_block, Block.type, Block.rich_text] using hst
      | some rts =>
        cases rts with
        | nil => simpa [process_block, Block.type, Block.rich_text] using hst
        | cons f r =>
          intro e he
          have hd : (decide (("" : String) ≠ "")) = false := by decide
          simp only [process_block, Block.type, Block.rich_text, hd, Bool.and_false,
            Bool.false_eq_true, if_false] at he
          repeat' split at he
          all_goals
            first
            | exact hst e he
            | (rcases List.mem_append.mp he with h1 | h2
               · exact hst e h1
               · rcases List.mem_singleton.mp h2 with rfl
                 exact ⟨by assumption, rfl⟩)

theorem process_blocks_foldl_invariant (title url : String) :
    ∀ (blocks : List Block) (st : String × List Entry),
      (∀ e ∈ st.2, e.raw ≠ "" ∧ e.compiled = e.raw) →
      ∀ e ∈ (blocks.foldl (process_block title url) st).2,
        e.raw ≠ "" ∧ e.compiled = e.raw := by
  intro blocks
  induction blocks with
  | nil => intro st h; simpa using h
  | cons b bs ih =>
    intro st h
    simp only [List.foldl_cons]
    exact ih _ (process_block_preserves title url st b h)

/-- C9: every Entry emitted by `process_page` has a non-empty raw string and
a compiled text equal to its raw text; a block with no recognized type, or
whose rich-text run list is missing or empty, is skipped entirely and leaves
the state (heading context and emitted entries) unchanged. -/
theorem entry_invariants :
    (∀ (page : PageRecord) (entries : List Entry),
       process_page page = Except.ok entries →
       ∀ e ∈ entries, e.raw ≠ "" ∧ e.compiled = e.raw) ∧
    (∀ (title url : String) (st : String × List Entry) (b : Block),
       (b.type = none ∨ b.rich_text = none ∨ b.rich_text = some []) →
       process_block title url st b = st) := by
  constructor
  · intro page entries h e he
    unfold process_page at h
    cases hg : get_page_content page with
    | error msg => rw [hg] at h; exact absurd h (by simp)
    | ok tc =>
      obtain ⟨t?, c?⟩ := tc
      rw [hg] at h
      cases t? with
      | none =>
        simp only [Except.ok.injEq] at h
        subst h
        exact absurd he (List.not_mem_nil e)
      | some title =>
        cases c? with
        | none =>
          simp only [Except.ok.injEq] at h
          subst h
          exact absurd he (List.not_mem_nil e)
        | some blocks =>
          simp only [Except.ok.injEq] at h
          subst h
          exact process_blocks_foldl_invariant title page.url blocks ("", [])
            (by intro x hx; exact absurd hx (List.not_mem_nil x)) e he
  · intro title url st b h
    cases b with
    | mk t rt hc pc cc =>
      rcases h with h | h | h
      · simp only [Block.type] at h; subst h; rfl
      · simp only [Block.rich_text] at h; subst h; cases t <;> rfl
      · simp only [Block.rich_text] at h; subst h; cases t <;> rfl

theorem entry_invariants_witness :
    process_page (mkPage [para "a"]) = Except.ok [Entry.mk "a" "a" "T" "u"] ∧
    ((Entry.mk "a" "a" "T" "u").raw ≠ "" ∧
     (Entry.mk "a" "a" "T" "u").compiled = (Entry.mk "a" "a" "T" "u").raw) :=
  ⟨rfl, entry_invariants.1 (mkPage [para "a"]) [Entry.mk "a" "a" "T" "u"] rfl
    (Entry.mk "a" "a" "T" "u") (List.mem_singleton.mpr rfl)⟩

/-- C6: `process_nested_children` serializes a nested child's runs with the
caller's (parent's) `block_type` as context, and performs a single-path
descent: as soon as a child triggers the recursive call, the call's result
is returned immediately, so the siblings after that child are never
processed — the result does not depend on them. -/
theorem nested_children_single_path (bt : Option String) :
    (∀ (ct : String) (rts : List TextRun) (hcR : Option Bool)
       (cc rest : List Block) (raw : String),
       process_nested_children
           (Block.mk (some ct) (some rts) hcR (some false) cc :: rest) raw bt =
         process_nested_children rest (serializeRuns rts bt raw) bt) ∧
    (∀ (pre : List Block) (child : Block) (ct : String) (raw : String),
       (∀ b ∈ pre, b.type = none ∨ b.payload_has_children = some false) →
       child.type = some ct →
       child.payload_has_children.getD true = true →
       ∀ rest₁ rest₂ : List Block,
         process_nested_children (pre ++ child :: rest₁) raw bt =
           process_nested_children (pre ++ child :: rest₂) raw bt) := by
  constructor
  · intro ct rts hcR cc rest raw
    rw [pnc_cons_typed]
    cases rts with
    | nil => rfl
    | cons f r => simp
  · intro pre
    induction pre with
    | nil =>
      intro child ct raw h hct hch rest₁ rest₂
      obtain ⟨t, rt, hc, pc, cc⟩ := child
      simp only [Block.type] at hct
      subst hct
      simp only [Block.payload_has_children] at hch
      rw [List.nil_append, List.nil_append, pnc_cons_typed, pnc_cons_typed, hch]
      simp
    | cons b pre' ih =>
      intro child ct raw h hct hch rest₁ rest₂
      obtain ⟨t, rt, hc, pc, cc⟩ := b
      have h' : ∀ x ∈ pre', x.type = none ∨ x.payload_has_children = some false :=
        fun x hx => h x (List.mem_cons_of_mem _ hx)
      rcases h _ (List.mem_cons_self _ _) with hbt | hbp
      · simp only [Block.type] at hbt
        subst hbt
        rw [List.cons_append, List.cons_append, pnc_cons_untyped, pnc_cons_untyped]
        exact ih child ct raw h' hct hch rest₁ rest₂
      · simp only [Block.payload_has_children] at hbp
        subst hbp
        cases t with
        | none =>
          rw [List.cons_append, List.cons_append, pnc_cons_untyped, pnc_cons_untyped]
          exact ih child ct raw h' hct hch rest₁ rest₂
        | some ctb =>
          rw [List.cons_append, List.cons_append, pnc_cons_typed, pnc_cons_typed]
          simp only [Option.getD_some, if_false, Bool.false_eq_true]
          exact ih child ct _ h' hct hch rest₁ rest₂

theorem nested_children_single_path_witness :
    (∀ b ∈ ([] : List Block), b.type = none ∨ b.payload_has_children = some false) ∧
    process_nested_children
        ([] ++ Block.mk (some "paragraph") (some [tRun "c"]) none none [] :: [para "z"])
        "" (some "paragraph") =
      process_nested_children
        ([] ++ Block.mk (some "paragraph") (some [tRun "c"]) none none [] ::
          ([] : List Block)) "" (some "paragraph") :=
  ⟨fun b hb => absurd hb (List.not_mem_nil b),
   (nested_children_single_path (some "paragraph")).2 []
     (Block.mk (some "paragraph") (some [tRun "c"]) none none []) "paragraph" ""
     (fun b hb => absurd hb (List.not_mem_nil b)) rfl rfl [para "z"] []⟩

theorem markGo_map_snd (prev : List (Nat × Entry)) :
    ∀ (cur : List Entry) (n : Nat), (markGo prev cur n).map Prod.snd = cur := by
  intro cur
  induction cur with
  | nil => intro n; rfl
  | cons e rest ih =>
    intro n
    cases hf : prev.find? (fun p => p.2.compiled = e.compiled) with
    | some p => simp [markGo, hf, ih]
    | none => simp [markGo, hf, ih]

theorem markGo_matched (prev : List (Nat × Entry)) :
    ∀ (cur : List Entry) (n : Nat) (q : Nat × Entry), q ∈ markGo prev cur n →
      (∃ p ∈ prev, p.2.compiled = q.2.compiled) →
      ∃ p ∈ prev, p.2.compiled = q.2.compiled ∧ q.1 = p.1 := by
  intro cur
  induction cur with
  | nil => intro n q hq; exact absurd hq (List.not_mem_nil q)
  | cons e rest ih =>
    intro n q hq hex
    cases hf : prev.find? (fun p => p.2.compiled = e.compiled) with
    | some p =>
      rw [markGo, hf] at hq
      rcases List.mem_cons.mp hq with rfl | ht
      · have hmem := List.mem_of_find?_eq_some hf
        have heq := List.find?_some hf
        simp only [decide_eq_true_eq] at heq
        exact ⟨p, hmem, heq, rfl⟩
      · exact ih n q ht hex
    | none =>
      rw [markGo, hf] at hq
      rcases List.mem_cons.mp hq with rfl | ht
      · obtain ⟨p, hp, hpe⟩ := hex
        have := List.find?_eq_none.mp hf p hp
        simp only [decide_eq_true_eq] at this
        exact absurd hpe this
      · exact ih (n + 1) q ht hex

theorem markGo_unmatched_ge (prev : List (Nat × Entry)) :
    ∀ (cur : List Entry) (n : Nat) (q : Nat × Entry), q ∈ markGo prev cur n →
      (∀ p ∈ prev, p.2.compiled ≠ q.2.compiled) → n ≤ q.1 := by
  intro cur
  induction cur with
  | nil => intro n q hq; exact absurd hq (List.not_mem_nil q)
  | cons e rest ih =>
    intro n q hq hun
    cases hf : prev.find? (fun p => p.2.compiled = e.compiled) with
    | some p =>
      rw [markGo, hf] at hq
      rcases List.mem_cons.mp hq with rfl | ht
      · have hmem := List.mem_of_find?_eq_some hf
        have heq := List.find?_some hf
        simp only [decide_eq_true_eq] at heq
        exact absurd heq (hun p hmem)
      · exact ih n q ht hun
    | none =>
      rw [markGo, hf] at hq
      rcases List.mem_cons.mp hq with rfl | ht
      · exact le_refl n
      · exact Nat.le_of_succ_le (ih (n + 1) q ht hun)

theorem markGo_pairwise (prev : List (Nat × Entry)) :
    ∀ (cur : List Entry) (n : Nat),
      (markGo prev cur n).Pairwise (fun a b =>
        (∀ p ∈ prev, p.2.compiled ≠ a.2.compiled) →
        (∀ p ∈ prev, p.2.compiled ≠ b.2.compiled) → a.1 < b.1) := by
  intro cur
  induction cur with
  | nil => intro n; exact List.Pairwise.nil
  | cons e rest ih =>
    intro n
    cases hf : prev.find? (fun p => p.2.compiled = e.compiled) with
    | some p =>
      rw [markGo, hf]
      refine List.Pairwise.cons ?_ (ih n)
      intro b hb hua hub
      have hmem := List.mem_of_find?_eq_some hf
      have heq := List.find?_some hf
      simp only [decide_eq_true_eq] at heq
      exact absurd heq (hua p hmem)
    | none =>
      rw [markGo, hf]
      refine List.Pairwise.cons ?_ (ih (n + 1))
      intro b hb hua hub
      exact Nat.lt_of_succ_le (markGo_unmatched_ge prev rest (n + 1) b hb hub)

theorem mem_le_foldr_max : ∀ (l : List Nat) (x : Nat), x ∈ l → x ≤ l.foldr max 0 := by
  intro l
  induction l with
  | nil => intro x hx; exact absurd hx (List.not_mem_nil x)
  | cons a l ih =>
    intro x hx
    rcases List.mem_cons.mp hx with rfl | h
    · exact le_max_left x (l.foldr max 0)
    · exact le_trans (ih x h) (le_max_right a (l.foldr max 0))

theorem markGo_stability (prev : List (Nat × Entry))
    (hnd : (prev.map (fun p => p.2.compiled)).Nodup) :
    ∀ (cur : List Entry) (pre post : List (Nat × Entry)) (n : Nat),
      prev = pre ++ post →
      cur.map Entry.compiled = post.map (fun p => p.2.compiled) →
      (markGo prev cur n).map Prod.fst = post.map Prod.fst := by
  intro cur
  induction cur with
  | nil =>
    intro pre post n hsplit hmap
    cases post with
    | nil => rfl
    | cons p post' => simp at hmap
  | cons e rest ih =>
    intro pre post n hsplit hmap
    cases post with
    | nil => simp at hmap
    | cons p post' =>
      rw [List.map_cons, List.map_cons] at hmap
      injection hmap with h1 h2
      have hfind : prev.find? (fun q => q.2.compiled = e.compiled) = some p := by
        rw [hsplit, List.find?_append]
        have hpre : pre.find? (fun q => q.2.compiled = e.compiled) = none := by
          rw [List.find?_eq_none]
          intro x hx
          simp only [decide_eq_true_eq]
          intro hxe
          have hnd' : ((pre ++ p :: post').map (fun p => p.2.compiled)).Nodup := by
            rw [← hsplit]; exact hnd
          rw [List.map_append, List.nodup_append] at hnd'
          have hdisj := hnd'.2.2
          exact hdisj (List.mem_map_of_mem (fun p => p.2.compiled) hx)
            (by rw [List.map_cons, hxe, h1]; exact List.mem_cons_self _ _)
        rw [hpre]
        have hp : (fun q : Nat × Entry => decide (q.2.compiled = e.compiled)) p = true := by
          simp [h1]
        rw [List.find?_cons_of_pos post' hp]
        rfl
      rw [markGo, hfind, List.map_cons, List.map_cons]
      refine congrArg (List.cons p.1) ?_
      exact ih (pre ++ [p]) post' n (by rw [hsplit, List.append_assoc]; rfl) h2

/-- C3: reconciliation against a non-empty previous snapshot: the output
carries exactly the current entries in current order (previous entries with
no match are dropped); a current entry whose compiled text equals some
previous entry's compiled text is assigned a matching previous entry's id
(independent of position); an unmatched entry's id collides with no previous
id and with no other assigned id of an unmatched entry (matched ids are
previous ids, so unmatched ids collide with no already-assigned id at all);
and for a second run over identical content (same compiled-text sequence,
with distinct content keys) every entry keeps its previously assigned id. -/
theorem update_entries_reconciliation (current : List Entry)
    (previous : List (Nat × Entry)) (hp : previous ≠ []) :
    ((update_entries_with_ids current previous).map Prod.snd = current) ∧
    (∀ q ∈ update_entries_with_ids current previous,
       (∃ p ∈ previous, p.2.compiled = q.2.compiled) →
       ∃ p ∈ previous, p.2.compiled = q.2.compiled ∧ q.1 = p.1) ∧
    (∀ q ∈ update_entries_with_ids current previous,
       (∀ p ∈ previous, p.2.compiled ≠ q.2.compiled) →
       q.1 ∉ previous.map Prod.fst) ∧
    ((update_entries_with_ids current previous).Pairwise (fun a b =>
       (∀ p ∈ previous, p.2.compiled ≠ a.2.compiled) →
       (∀ p ∈ previous, p.2.compiled ≠ b.2.compiled) → a.1 ≠ b.1)) ∧
    (current.map Entry.compiled = previous.map (fun p => p.2.compiled) →
     (previous.map (fun p => p.2.compiled)).Nodup →
     (update_entries_with_ids current previous).map Prod.fst =
       previous.map Prod.fst) := by
  have hne : previous.isEmpty = false := by
    cases previous with
    | nil => exact absurd rfl hp
    | cons a l => rfl
  have hupd : update_entries_with_ids current previous =
      markGo previous current (nextFreshId previous) := by
    simp [update_entries_with_ids, hne, mark_entries_for_update]
  rw [hupd]
  refine ⟨markGo_map_snd previous current _,
    fun q hq => markGo_matched previous current _ q hq, ?_, ?_, ?_⟩
  · intro q hq hun hmem
    have h1 := markGo_unmatched_ge previous current _ q hq hun
    have h2 := mem_le_foldr_max (previous.map Prod.fst) q.1 hmem
    have h3 : nextFreshId previous = (previous.map Prod.fst).foldr max 0 + 1 := rfl
    omega
  · exact (markGo_pairwise previous current _).imp
      (fun h hua hub => Nat.ne_of_lt (h hua hub))
  · intro hmap hnd
    exact markGo_stability previous hnd current [] previous _ rfl hmap

theorem update_entries_reconciliation_witness :
    ([((0 : Nat), mkE "a"), (1, mkE "b")] : List (Nat × Entry)) ≠ [] ∧
    (update_entries_with_ids [mkE "a", mkE "c"]
        [(0, mkE "a"), (1, mkE "b")]).map Prod.snd = [mkE "a", mkE "c"] :=
  ⟨by decide,
   (update_entries_reconciliation [mkE "a", mkE "c"]
     [(0, mkE "a"), (1, mkE "b")] (by decide)).1⟩

end Notion
